import Mathlib

/-!
# Verification of the `spec_annotate` audition synth engine and scheduler

Shallow embedding of `src/spec_annotate/synth.py` (class `SynthEngine`) and
of the audition scheduler `MainWindow._audition_update_for_time` in
`src/spec_annotate/main_window.py`.

Modelling conventions:
* Python floats are modelled as exact rationals (`ℚ`) for all envelope and
  phase bookkeeping, and as reals (`ℝ`) where transcendental values appear
  (the velocity-to-gain power curve, sine evaluation).
* The oscillator phase is stored in *turns*: the source stores radians and
  keeps `phase_radians = 2π * phase`; `np.mod(x, 2*np.pi)` on radians is the
  fractional part in turns.  Every source expression is divided through by
  `2π`, and the sample value is `Real.sin (2 * π * phaseTurns)`.
* Python's `dict` is modelled as an insertion-ordered association list;
  `d[k] = v` replaces in place when the key is present and appends otherwise,
  `d.pop(k)` removes the binding, iteration is in list order.
* `int(x)` on the nonnegative quantities arising here is `⌊x⌋`.
* The sounddevice stream (device open/close, callback scheduling) is outside
  the state model; `_render_chunk` is modelled as a function of the engine
  state and a frame count, and `stop` by its effect on engine state (the
  `finally:` block always clears the voice dict, whether or not closing the
  stream raised).
-/

namespace SpecAnnotate

/-- Envelope state of a voice: the `'attack' / 'sustain' / 'release' / 'done'`
strings of `synth.py`. -/
inductive EnvState where
  | attack
  | sustain
  | release
  | done
deriving DecidableEq, Repr

/-- One voice dict as built in `SynthEngine.note_on` (`synth.py` lines 80–88).
`phase` is stored in turns (source: radians, `phase_radians = 2π * phase`);
`gain` is the real value `(clamp(velocity,0,127)/127) ** 0.8`. -/
structure Voice where
  freq : ℚ
  phase : ℚ
  gain : ℝ
  state : EnvState
  env : ℚ
  attack_inc : ℚ
  release_inc : ℚ

/-- Engine state: the mutable fields of `SynthEngine.__init__` that the
control interface and the render callback touch.  `voices` is the
insertion-ordered `dict` `self._voices`. -/
structure SynthEngine where
  sample_rate : ℕ
  max_voices : ℕ
  blocksize : ℕ
  next_voice_id : ℕ
  voices : List (ℕ × Voice)
  master_gain : ℚ
  attack_sec : ℚ
  release_sec : ℚ

/-- `SynthEngine.__init__(sample_rate=44100, max_voices=32)`:
`blocksize = 512`, `_next_voice_id = 1`, empty voice dict,
`master_gain = 0.2`, `attack_sec = 0.01`, `release_sec = 0.03`. -/
def mkEngine (sample_rate : ℕ := 44100) (max_voices : ℕ := 32) : SynthEngine :=
  { sample_rate := sample_rate
    max_voices := max_voices
    blocksize := 512
    next_voice_id := 1
    voices := []
    master_gain := 1 / 5
    attack_sec := 1 / 100
    release_sec := 3 / 100 }

/-- Keys of an insertion-ordered dict. -/
def keysOf {β : Type} (l : List (ℕ × β)) : List ℕ := l.map Prod.fst

/-- Python `d[k] = v`: replace the binding in place when `k` is present,
append otherwise. -/
def dictInsert {β : Type} (l : List (ℕ × β)) (k : ℕ) (v : β) : List (ℕ × β) :=
  if k ∈ keysOf l then l.map (fun p => if p.1 = k then (k, v) else p)
  else l ++ [(k, v)]

/-- Python `d.get(k)`: first binding for `k`, if any. -/
def dictGet {β : Type} (l : List (ℕ × β)) (k : ℕ) : Option β :=
  (l.find? (fun p => p.1 = k)).map Prod.snd

/-- Python `d.pop(k, default)` restricted to its effect on the dict:
drop the binding for `k`. -/
def dictPop {β : Type} (l : List (ℕ × β)) (k : ℕ) : List (ℕ × β) :=
  l.filter (fun p => p.1 ≠ k)

/-- Python `d[k] = f(d[k])` for a key known to be present: update in place. -/
def dictModify {β : Type} (l : List (ℕ × β)) (k : ℕ) (f : β → β) : List (ℕ × β) :=
  l.map (fun p => if p.1 = k then (p.1, f p.2) else p)

/-- `synth.py` line 71–72: map MIDI velocity 0..127 to gain 0..1 with a mild
curve, `gain = (max(0, min(127, velocity)) / 127.0) ** 0.8`.  The float
exponent `0.8` is the real `4/5`. -/
noncomputable def gainOf (velocity : ℤ) : ℝ :=
  (((max 0 (min 127 velocity) : ℤ) : ℝ) / 127) ^ ((0.8 : ℝ))

/-- The voice dict built in `SynthEngine.note_on` (`synth.py` lines 74–88):
`attack_samples = max(1, int(attack_sec * sample_rate))` and likewise for
release (Python ints, here `ℤ`); the per-sample increments are their
reciprocals; the voice starts in attack at envelope level `0` with phase
`0`. -/
noncomputable def newVoice (E : SynthEngine) (freq_hz : ℚ) (velocity : ℤ) : Voice :=
  { freq := freq_hz
    phase := 0
    gain := gainOf velocity
    state := .attack
    env := 0
    attack_inc := 1 / ((max 1 ⌊E.attack_sec * (E.sample_rate : ℚ)⌋ : ℤ) : ℚ)
    release_inc := 1 / ((max 1 ⌊E.release_sec * (E.sample_rate : ℚ)⌋ : ℤ) : ℚ) }

/-- `SynthEngine.note_on` (`synth.py` lines 65–90).  Returns the updated
engine and the `Optional[int]` result: `none` when the pool already holds
`max_voices` voices (the dict left untouched), otherwise the freshly
allocated voice id, with `_next_voice_id` incremented and the new voice
inserted under the old id. -/
noncomputable def noteOn (E : SynthEngine) (freq_hz : ℚ) (velocity : ℤ) :
    SynthEngine × Option ℕ :=
  if E.max_voices ≤ E.voices.length then (E, none)
  else
    ({ E with next_voice_id := E.next_voice_id + 1,
              voices := dictInsert E.voices E.next_voice_id (newVoice E freq_hz velocity) },
      some E.next_voice_id)

/-- `SynthEngine.note_off` (`synth.py` lines 92–95): if the id is bound and
the voice is not already in release, set its state to release. -/
def noteOff (E : SynthEngine) (voice_id : ℕ) : SynthEngine :=
  match dictGet E.voices voice_id with
  | none => E
  | some v =>
      if v.state = .release then E
      else { E with voices := dictModify E.voices voice_id
                      (fun w => { w with state := .release }) }

/-- `SynthEngine.set_voice_freq` (`synth.py` lines 97–106): retune in place
when the id is bound, silent no-op otherwise. -/
def setVoiceFreq (E : SynthEngine) (voice_id : ℕ) (freq_hz : ℚ) : SynthEngine :=
  match dictGet E.voices voice_id with
  | none => E
  | some _ => { E with voices := dictModify E.voices voice_id
                        (fun w => { w with freq := freq_hz }) }

/-- `SynthEngine.all_notes_off` (`synth.py` lines 108–110): set every
voice's state to release. -/
def allNotesOff (E : SynthEngine) : SynthEngine :=
  { E with voices := E.voices.map (fun p => (p.1, { p.2 with state := .release })) }

/-- `SynthEngine.stop` (`synth.py` lines 112–123) restricted to engine
state: the `finally:` block clears the voice dict whether or not stopping
or closing the stream raised. -/
def stopEngine (E : SynthEngine) : SynthEngine :=
  { E with voices := [] }

/-- Fractional part of a rational: `np.mod(x, 2*np.pi)` on a phase in
radians is `fract` on the same phase in turns. -/
def fract (q : ℚ) : ℚ := Int.fract q

/-- The per-sample envelope increment selected by the state
(`synth.py` lines 166–172): `attack_inc` in attack, `-release_inc` in
release, `0` otherwise. -/
def envInc (v : Voice) : ℚ :=
  match v.state with
  | .attack => v.attack_inc
  | .release => -v.release_inc
  | _ => 0

/-- Phase stored for the next chunk (`synth.py` line 243, in turns):
`np.mod(phase_vector[-1], 2π)` where `phase_vector[-1] = phase + w*(n-1)`
and `w` (in turns per sample) is `freq / sample_rate`.  The callback is
never invoked with `n = 0` (the stream blocksize is 512), so `n - 1` is the
ordinary predecessor. -/
def nextPhase (sr : ℕ) (v : Voice) (n : ℕ) : ℚ :=
  fract (v.phase + v.freq / (sr : ℚ) * ((n - 1 : ℕ) : ℚ))

/-- The body of the voice-processing loop of `SynthEngine._render_chunk`
(`synth.py` lines 148–243) for one voice and a block of `n` frames.
Returns the updated voice, whether the voice was appended to
`dead_voices`, and the envelope multiplier applied to each sample index of
the block: the contribution of this voice to `out[i]` is
`sin(2π * (phase + freq/sr * i)) * master_gain * gain * (multiplier i)`
(a done voice is skipped, i.e. contributes the zero multiplier).
Branches mirror the source: `env_end = env + env_inc * n`; in attack, if
`env_end >= 1` the transition index is `int((1 - env) / env_inc)` and the
block is a ramp below it and `1.0` from it on, with the voice left in
sustain at level `1.0`; in release, if `env_end <= 0` the transition index
is `int(env / |env_inc|)` and the block is a ramp below it and silence from
it on, with the voice marked done; otherwise a full ramp (or a constant
hold in sustain).  `int` of these nonnegative quantities is `⌊·⌋`. -/
def processVoice (sr : ℕ) (n : ℕ) (v : Voice) : Voice × Bool × (ℕ → ℚ) :=
  if v.state = .done then (v, true, fun _ => 0)
  else
    let env_inc := envInc v
    let env_end := v.env + env_inc * (n : ℚ)
    if 0 < env_inc then
      if 1 ≤ env_end then
        let t : ℕ := (⌊(1 - v.env) / env_inc⌋).toNat
        ({ v with env := 1, state := .sustain, phase := nextPhase sr v n },
          false, fun i => if i < t then v.env + env_inc * (i : ℚ) else 1)
      else
        ({ v with env := env_end, phase := nextPhase sr v n },
          false, fun i => v.env + env_inc * (i : ℚ))
    else if env_inc < 0 then
      if env_end ≤ 0 then
        let t : ℕ := (⌊v.env / (-env_inc)⌋).toNat
        ({ v with env := 0, state := .done, phase := nextPhase sr v n },
          true, fun i => if i < t then v.env + env_inc * (i : ℚ) else 0)
      else
        ({ v with env := env_end, phase := nextPhase sr v n },
          false, fun i => v.env + env_inc * (i : ℚ))
    else
      ({ v with phase := nextPhase sr v n }, false, fun _ => v.env)

/-- State effect of one `_render_chunk` callback: every voice is processed
in dict order, and the voices collected in `dead_voices` are popped from
the dict before the callback returns (`synth.py` lines 247–249). -/
def renderChunkState (E : SynthEngine) (n : ℕ) : SynthEngine :=
  { E with voices :=
      ((E.voices.map (fun p => (p.1, processVoice E.sample_rate n p.2))).filter
        (fun q => ¬ q.2.2.1)).map (fun q => (q.1, q.2.1)) }

/-- Sample `i` of the float mix accumulator `out` of one `_render_chunk`
callback (`synth.py` lines 142, 174–238), before clipping and int16
quantization: the sum over voices of
`sin(phase + w*i) * (master_gain * gain * env_multiplier(i))`, with the
phase written in turns. -/
noncomputable def renderMix (E : SynthEngine) (n : ℕ) (i : ℕ) : ℝ :=
  (E.voices.map (fun p =>
      Real.sin (2 * Real.pi * ((p.2.phase : ℝ) + (p.2.freq : ℝ) / (E.sample_rate : ℝ) * (i : ℝ))) *
        ((E.master_gain : ℝ) * p.2.gain * ((processVoice E.sample_rate n p.2).2.2 i : ℝ)))).sum

/-- Sample `i` of the clipped float block (`synth.py` line 252):
`np.clip(out, -1.0, 1.0)`. -/
noncomputable def renderClipped (E : SynthEngine) (n : ℕ) (i : ℕ) : ℝ :=
  max (-1) (min 1 (renderMix E n i))

/-- The non-terminal envelope states are distinct from the terminal one. -/
theorem attack_ne_done : EnvState.attack ≠ EnvState.done := by decide

/-- Sustain is distinct from the terminal state. -/
theorem sustain_ne_done : EnvState.sustain ≠ EnvState.done := by decide

/-- Release is distinct from the terminal state. -/
theorem release_ne_done : EnvState.release ≠ EnvState.done := by decide

/-- One timeline note as returned by `export_notes_seconds` in
`main_window.py`: `(pitch, start, end, velocity)`. -/
structure Note where
  pitch : ℤ
  start : ℚ
  stop : ℚ
  vel : ℤ

/-- The desired active index set of `_audition_update_for_time`
(`main_window.py` lines 1040–1045), as the ascending list of indices `i`
with `start_i ≤ t < end_i`. -/
def wantActive (notes : List Note) (t : ℚ) : List ℕ :=
  (notes.enum.filter (fun p => decide (p.2.start ≤ t ∧ t < p.2.stop))).map Prod.fst

/-- Observation of one Control Interface call issued by the scheduler:
`on i` records a `note_on` issued while starting note index `i`, `off vid`
records a `note_off` issued for voice id `vid`. -/
inductive SynthCall where
  | on (idx : ℕ)
  | off (vid : ℕ)
deriving DecidableEq, Repr

/-- First loop of `_audition_update_for_time` (`main_window.py` lines
1047–1056): every tracked index no longer wanted is popped and `note_off`
is issued for each of its voice ids; tracked entries still wanted are kept
in order.  Returns the engine, the surviving tracking dict, and the log of
issued calls. -/
def removePhase (want : List ℕ) :
    SynthEngine → List (ℕ × List ℕ) → SynthEngine × List (ℕ × List ℕ) × List SynthCall
  | E, [] => (E, [], [])
  | E, (idx, vids) :: rest =>
      if idx ∈ want then
        let res := removePhase want E rest
        (res.1, (idx, vids) :: res.2.1, res.2.2)
      else
        let res := removePhase want (vids.foldl noteOff E) rest
        (res.1, res.2.1, vids.map SynthCall.off ++ res.2.2)

/-- Second loop of `_audition_update_for_time` (`main_window.py` lines
1058–1069), iterating over `sorted(want_active_idxs)`: an index already
tracked is skipped; otherwise `note_on(freqOf(pitch_i), vel_i)` is issued
and, when it returns a voice id, the index is recorded with that single
id.  `librosa.midi_to_hz` is the collaborator pitch-to-Hz map `freqOf`. -/
noncomputable def addPhase (notes : List Note) (freqOf : ℤ → ℚ) :
    SynthEngine → List (ℕ × List ℕ) → List ℕ → SynthEngine × List (ℕ × List ℕ) × List SynthCall
  | E, tracked, [] => (E, tracked, [])
  | E, tracked, i :: rest =>
      if i ∈ keysOf tracked then addPhase notes freqOf E tracked rest
      else
        match notes.get? i with
        | none => addPhase notes freqOf E tracked rest
        | some nt =>
            let r := noteOn E (freqOf nt.pitch) nt.vel
            let tracked' := match r.2 with
              | some vid => dictInsert tracked i [vid]
              | none => tracked
            let res := addPhase notes freqOf r.1 tracked' rest
            (res.1, res.2.1, SynthCall.on i :: res.2.2)

/-- `MainWindow._audition_update_for_time` (`main_window.py` lines
1030–1071): reconcile the tracking dict `self._active_note_voices` with
the desired active set at time `t`, returning the engine, the new tracking
dict, and the log of Control Interface calls issued. -/
noncomputable def auditionUpdateForTime (freqOf : ℤ → ℚ) (E : SynthEngine)
    (tracked : List (ℕ × List ℕ)) (notes : List Note) (t : ℚ) :
    SynthEngine × List (ℕ × List ℕ) × List SynthCall :=
  let want := wantActive notes t
  let r := removePhase want E tracked
  let a := addPhase notes freqOf r.1 r.2.1 want
  (a.1, a.2.1, r.2.2 ++ a.2.2)

/-- A sequence of `note_on` calls: returns the final engine and the ids
returned by the successful calls, in order. -/
noncomputable def noteOnSeq : SynthEngine → List (ℚ × ℤ) → SynthEngine × List ℕ
  | E, [] => (E, [])
  | E, (f, vel) :: rest =>
      let r := noteOn E f vel
      let res := noteOnSeq r.1 rest
      (res.1, (match r.2 with | some vid => [vid] | none => []) ++ res.2)

/-! ## Basic lemmas about the dict model and the control interface -/

theorem keysOf_append {β : Type} (l l' : List (ℕ × β)) :
    keysOf (l ++ l') = keysOf l ++ keysOf l' := by
  simp [keysOf]

theorem dictInsert_fresh {β : Type} (l : List (ℕ × β)) (k : ℕ) (v : β)
    (h : k ∉ keysOf l) : dictInsert l k v = l ++ [(k, v)] := by
  simp [dictInsert, h]

theorem dictInsert_length {β : Type} (l : List (ℕ × β)) (k : ℕ) (v : β) :
    (dictInsert l k v).length = if k ∈ keysOf l then l.length else l.length + 1 := by
  by_cases h : k ∈ keysOf l <;> simp [dictInsert, h]

theorem keysOf_dictInsert {β : Type} (l : List (ℕ × β)) (k : ℕ) (v : β) :
    keysOf (dictInsert l k v) = if k ∈ keysOf l then keysOf l else keysOf l ++ [k] := by
  by_cases h : k ∈ keysOf l
  · rw [if_pos h]
    unfold dictInsert
    rw [if_pos h]
    unfold keysOf
    rw [List.map_map]
    refine List.map_congr_left ?_
    intro p _
    by_cases hk : p.1 = k <;> simp [hk]
  · rw [if_neg h, dictInsert_fresh l k v h, keysOf_append]
    rfl

theorem dictInsert_mem_keys {β : Type} (l : List (ℕ × β)) (k : ℕ) (v : β) (i : ℕ) :
    i ∈ keysOf (dictInsert l k v) ↔ i ∈ keysOf l ∨ i = k := by
  rw [keysOf_dictInsert]
  by_cases h : k ∈ keysOf l
  · rw [if_pos h]
    constructor
    · exact Or.inl
    · rintro (hi | rfl) <;> [exact hi; exact h]
  · rw [if_neg h]
    simp

theorem dictModify_length {β : Type} (l : List (ℕ × β)) (k : ℕ) (f : β → β) :
    (dictModify l k f).length = l.length := by
  simp [dictModify]

theorem dictModify_keys {β : Type} (l : List (ℕ × β)) (k : ℕ) (f : β → β) :
    keysOf (dictModify l k f) = keysOf l := by
  induction l with
  | nil => rfl
  | cons p rest ih =>
      by_cases h : p.1 = k <;> simp [dictModify, keysOf, h] at ih ⊢ <;>
        simpa [keysOf, dictModify] using ih

/-- When the pool is at (or beyond) capacity, `note_on` is the identity on
the engine and returns no voice. -/
theorem noteOn_full (E : SynthEngine) (f : ℚ) (vel : ℤ)
    (h : E.max_voices ≤ E.voices.length) : noteOn E f vel = (E, none) := by
  rw [noteOn, if_pos h]

/-- Below capacity, `note_on` inserts the new voice under the current
counter value, increments the counter, and returns the id. -/
theorem noteOn_spare (E : SynthEngine) (f : ℚ) (vel : ℤ)
    (h : ¬ E.max_voices ≤ E.voices.length) :
    noteOn E f vel =
      ({ E with next_voice_id := E.next_voice_id + 1,
                voices := dictInsert E.voices E.next_voice_id (newVoice E f vel) },
        some E.next_voice_id) := by
  rw [noteOn, if_neg h]

theorem noteOn_max_voices (E : SynthEngine) (f : ℚ) (vel : ℤ) :
    (noteOn E f vel).1.max_voices = E.max_voices := by
  by_cases h : E.max_voices ≤ E.voices.length
  · rw [noteOn_full E f vel h]
  · rw [noteOn_spare E f vel h]

theorem noteOn_length_le (E : SynthEngine) (f : ℚ) (vel : ℤ)
    (h : E.voices.length ≤ E.max_voices) :
    (noteOn E f vel).1.voices.length ≤ E.max_voices := by
  by_cases hc : E.max_voices ≤ E.voices.length
  · rw [noteOn_full E f vel hc]; exact h
  · rw [noteOn_spare E f vel hc]
    show (dictInsert E.voices E.next_voice_id (newVoice E f vel)).length ≤ E.max_voices
    rw [dictInsert_length]
    split
    · exact h
    · omega

/-- A pool is id-fresh when every key is strictly below the counter. -/
def FreshIds (E : SynthEngine) : Prop :=
  ∀ k ∈ keysOf E.voices, k < E.next_voice_id

theorem noteOn_fresh (E : SynthEngine) (f : ℚ) (vel : ℤ) (hf : FreshIds E) :
    FreshIds (noteOn E f vel).1 := by
  by_cases hc : E.max_voices ≤ E.voices.length
  · rw [noteOn_full E f vel hc]; exact hf
  · rw [noteOn_spare E f vel hc]
    intro k hk
    show k < E.next_voice_id + 1
    have hnot : E.next_voice_id ∉ keysOf E.voices := fun hmem => lt_irrefl _ (hf _ hmem)
    have hk' : k ∈ keysOf (dictInsert E.voices E.next_voice_id (newVoice E f vel)) := hk
    rw [dictInsert_fresh _ _ _ hnot, keysOf_append] at hk'
    rcases List.mem_append.mp hk' with h1 | h1
    · exact Nat.lt_succ_of_lt (hf _ h1)
    · simp only [keysOf, List.map_cons, List.map_nil, List.mem_singleton] at h1
      omega

theorem noteOn_keeps (E : SynthEngine) (f : ℚ) (vel : ℤ) (hf : FreshIds E) :
    ∀ p ∈ E.voices, p ∈ (noteOn E f vel).1.voices := by
  intro p hp
  by_cases hc : E.max_voices ≤ E.voices.length
  · rw [noteOn_full E f vel hc]; exact hp
  · rw [noteOn_spare E f vel hc]
    have hnot : E.next_voice_id ∉ keysOf E.voices := fun hmem => lt_irrefl _ (hf _ hmem)
    rw [dictInsert_fresh _ _ _ hnot]
    exact List.mem_append_left _ hp

theorem noteOnSeq_length_le (E : SynthEngine) (reqs : List (ℚ × ℤ))
    (h : E.voices.length ≤ E.max_voices) :
    (noteOnSeq E reqs).1.voices.length ≤ E.max_voices := by
  induction reqs generalizing E with
  | nil => exact h
  | cons r rest ih =>
      obtain ⟨f, vel⟩ := r
      have h1 := noteOn_length_le E f vel h
      have h2 := ih (noteOn E f vel).1 (by rw [← noteOn_max_voices E f vel] at h1; exact h1)
      rw [noteOn_max_voices E f vel] at h2
      simpa [noteOnSeq] using h2

theorem noteOnSeq_keeps (E : SynthEngine) (reqs : List (ℚ × ℤ)) (hf : FreshIds E) :
    ∀ p ∈ E.voices, p ∈ (noteOnSeq E reqs).1.voices := by
  induction reqs generalizing E with
  | nil => intro p hp; exact hp
  | cons r rest ih =>
      obtain ⟨f, vel⟩ := r
      intro p hp
      have h1 := noteOn_keeps E f vel hf p hp
      have h2 := ih (noteOn E f vel).1 (noteOn_fresh E f vel hf) p h1
      simpa [noteOnSeq] using h2

/-- The ids returned by the successful calls of a `note_on` sequence are
the consecutive integers starting at the engine's counter. -/
theorem noteOnSeq_ids (E : SynthEngine) (reqs : List (ℚ × ℤ)) :
    (noteOnSeq E reqs).2 = List.range' E.next_voice_id (noteOnSeq E reqs).2.length := by
  induction reqs generalizing E with
  | nil => rfl
  | cons r rest ih =>
      obtain ⟨f, vel⟩ := r
      by_cases hc : E.max_voices ≤ E.voices.length
      · have hE : noteOn E f vel = (E, none) := noteOn_full E f vel hc
        simp only [noteOnSeq, hE]
        simpa using ih E
      · have hE := noteOn_spare E f vel hc
        have hih := ih (noteOn E f vel).1
        simp only [noteOnSeq, hE, List.singleton_append, List.length_cons] at hih ⊢
        rw [List.range'_succ]
        simpa using hih

/-! ## Concrete engines used by witnesses and counterexamples -/

/-- A one-voice-capacity engine whose pool is full: the state after
`SynthEngine(sample_rate=44100, max_voices=1)` followed by one successful
`note_on(440, 64)`. -/
noncomputable def engFull : SynthEngine := (noteOn (mkEngine 44100 1) 440 64).1

theorem engFull_voices_length : engFull.voices.length = 1 := by
  norm_num [engFull, noteOn, mkEngine, dictInsert, keysOf]

theorem engFull_max_voices : engFull.max_voices = 1 := by
  norm_num [engFull, noteOn, mkEngine]

theorem engFull_fresh : FreshIds engFull := by
  intro k hk
  simp only [engFull, noteOn, mkEngine] at hk ⊢
  norm_num [dictInsert, keysOf] at hk ⊢
  omega

/-! ## Claim theorems -/

/-- C1: for every engine state, `note_on` at capacity returns no voice and
leaves the engine unchanged; no sequence of `note_on` calls grows the pool
beyond `maxVoices`; and no existing voice is evicted by any sequence of
`note_on` calls (given the pool's keys are below the id counter, which
holds in every reachable state). -/
theorem c1_noteOn_at_capacity (E : SynthEngine) (f : ℚ) (vel : ℤ)
    (reqs : List (ℚ × ℤ))
    (hle : E.voices.length ≤ E.max_voices) (hf : FreshIds E) :
    (E.voices.length = E.max_voices → noteOn E f vel = (E, none)) ∧
    (noteOnSeq E reqs).1.voices.length ≤ E.max_voices ∧
    ∀ p ∈ E.voices, p ∈ (noteOnSeq E reqs).1.voices := by
  refine ⟨?_, noteOnSeq_length_le E reqs hle, noteOnSeq_keeps E reqs hf⟩
  intro hcap
  exact noteOn_full E f vel (le_of_eq hcap.symm)

/-- Witness for C1 at the full one-voice engine. -/
theorem c1_noteOn_at_capacity_witness :
    (engFull.voices.length = engFull.max_voices →
      noteOn engFull 330 100 = (engFull, none)) ∧
    (noteOnSeq engFull [(330, 100)]).1.voices.length ≤ engFull.max_voices ∧
    ∀ p ∈ engFull.voices, p ∈ (noteOnSeq engFull [(330, 100)]).1.voices :=
  c1_noteOn_at_capacity engFull 330 100 [(330, 100)]
    (by rw [engFull_voices_length, engFull_max_voices]) engFull_fresh

/-- C10: a failed `note_on` at capacity mutates nothing (in particular the
id counter), and the ids returned by the successful calls of any `note_on`
sequence are the consecutive integers starting at the counter — from a
fresh engine (`next_voice_id = 1`) they are `1, 2, 3, …` with no gaps, so
every successful id exceeds all earlier ones and failures consume no id. -/
theorem c10_voice_ids (E : SynthEngine) (f : ℚ) (vel : ℤ) (reqs : List (ℚ × ℤ))
    (hcap : E.max_voices ≤ E.voices.length) :
    noteOn E f vel = (E, none) ∧
    (noteOn E f vel).1.next_voice_id = E.next_voice_id ∧
    (noteOnSeq E reqs).2 = List.range' E.next_voice_id (noteOnSeq E reqs).2.length ∧
    (noteOnSeq (mkEngine) reqs).2 =
      List.range' 1 (noteOnSeq (mkEngine) reqs).2.length := by
  refine ⟨noteOn_full E f vel hcap, ?_, noteOnSeq_ids E reqs, noteOnSeq_ids (mkEngine) reqs⟩
  rw [noteOn_full E f vel hcap]

/-- Witness for C10 at the full one-voice engine. -/
theorem c10_voice_ids_witness :
    noteOn engFull 330 100 = (engFull, none) ∧
    (noteOn engFull 330 100).1.next_voice_id = engFull.next_voice_id ∧
    (noteOnSeq engFull [(330, 100)]).2 =
      List.range' engFull.next_voice_id (noteOnSeq engFull [(330, 100)]).2.length ∧
    (noteOnSeq (mkEngine) [(330, 100)]).2 =
      List.range' 1 (noteOnSeq (mkEngine) [(330, 100)]).2.length :=
  c10_voice_ids engFull 330 100 [(330, 100)]
    (by rw [engFull_voices_length, engFull_max_voices])

/-- C6 (amended): `stop` clears the pool (its `finally:` block runs even if
releasing the device raised) and is idempotent, and `note_off`,
`set_voice_freq` and `all_notes_off` issued after `stop` are no-ops on the
engine state; `note_on` after `stop` is NOT a no-op (see the
counterexample). -/
theorem c6_stop_noops (E : SynthEngine) (vid : ℕ) (f : ℚ) :
    stopEngine (stopEngine E) = stopEngine E ∧
    (stopEngine E).voices = [] ∧
    noteOff (stopEngine E) vid = stopEngine E ∧
    setVoiceFreq (stopEngine E) vid f = stopEngine E ∧
    allNotesOff (stopEngine E) = stopEngine E :=
  ⟨rfl, rfl, rfl, rfl, rfl⟩

/-- Counterexample to C6 as stated: after `stop()`, `note_on` allocates a
voice and returns an id — it is not a no-op and does not leave the engine
state unchanged (the source keeps no stopped flag; the cleared pool is
below capacity, so the insert succeeds). -/
theorem c6_stop_then_noteOn_counterexample :
    (noteOn (stopEngine (mkEngine)) 440 64).2 = some 1 ∧
    (noteOn (stopEngine (mkEngine)) 440 64).1.voices.length = 1 ∧
    (noteOn (stopEngine (mkEngine)) 440 64).1 ≠ stopEngine (mkEngine) := by
  refine ⟨?_, ?_, ?_⟩
  · norm_num [noteOn, stopEngine, mkEngine, dictInsert, keysOf]
  · norm_num [noteOn, stopEngine, mkEngine, dictInsert, keysOf]
  · intro h
    have hlen := congrArg (fun s => s.voices.length) h
    norm_num [noteOn, stopEngine, mkEngine, dictInsert, keysOf] at hlen

/-- C7: the voice created by `note_on` (on an engine with the fixed
configuration `attackSeconds = 0.01`, `releaseSeconds = 0.03`,
`sampleRate = 44100`) carries `gain = (clamp(velocity,0,127)/127)^0.8`,
`attackIncrement = 1/(attackSeconds*sampleRate)`,
`releaseIncrement = 1/(releaseSeconds*sampleRate)`, and starts in attack at
envelope level `0`. -/
theorem c7_new_voice_params (E : SynthEngine) (f : ℚ) (vel : ℤ)
    (ha : E.attack_sec = 1/100) (hr : E.release_sec = 3/100)
    (hsr : E.sample_rate = 44100) :
    (¬ E.max_voices ≤ E.voices.length →
      (noteOn E f vel).1.voices = dictInsert E.voices E.next_voice_id (newVoice E f vel)) ∧
    (newVoice E f vel).gain = (((max 0 (min 127 vel) : ℤ) : ℝ) / 127) ^ ((0.8 : ℝ)) ∧
    (newVoice E f vel).attack_inc = 1 / (E.attack_sec * (E.sample_rate : ℚ)) ∧
    (newVoice E f vel).release_inc = 1 / (E.release_sec * (E.sample_rate : ℚ)) ∧
    (newVoice E f vel).state = .attack ∧
    (newVoice E f vel).env = 0 := by
  refine ⟨fun h => by rw [noteOn_spare E f vel h], rfl, ?_, ?_, rfl, rfl⟩
  · show 1 / ((max 1 ⌊E.attack_sec * (E.sample_rate : ℚ)⌋ : ℤ) : ℚ) = _
    rw [ha, hsr]
    norm_num
  · show 1 / ((max 1 ⌊E.release_sec * (E.sample_rate : ℚ)⌋ : ℤ) : ℚ) = _
    rw [hr, hsr]
    norm_num

/-- Witness for C7 at the default engine with `note_on(440, 64)`. -/
theorem c7_new_voice_params_witness :
    (¬ (mkEngine).max_voices ≤ (mkEngine).voices.length →
      (noteOn (mkEngine) 440 64).1.voices =
        dictInsert (mkEngine).voices (mkEngine).next_voice_id (newVoice (mkEngine) 440 64)) ∧
    (newVoice (mkEngine) 440 64).gain = (((max 0 (min 127 (64 : ℤ)) : ℤ) : ℝ) / 127) ^ ((0.8 : ℝ)) ∧
    (newVoice (mkEngine) 440 64).attack_inc =
      1 / ((mkEngine).attack_sec * ((mkEngine).sample_rate : ℚ)) ∧
    (newVoice (mkEngine) 440 64).release_inc =
      1 / ((mkEngine).release_sec * ((mkEngine).sample_rate : ℚ)) ∧
    (newVoice (mkEngine) 440 64).state = .attack ∧
    (newVoice (mkEngine) 440 64).env = 0 :=
  c7_new_voice_params (mkEngine) 440 64 rfl rfl rfl

/-! ## The envelope invariant -/

/-- A well-formed voice: envelope level in `[0,1]` and positive per-sample
increments (as produced by `note_on`). -/
def VoiceOk (v : Voice) : Prop :=
  0 ≤ v.env ∧ v.env ≤ 1 ∧ 0 < v.attack_inc ∧ 0 < v.release_inc

/-- A well-formed pool: every voice is well formed. -/
def EngineOk (E : SynthEngine) : Prop := ∀ p ∈ E.voices, VoiceOk p.2

theorem newVoice_ok (E : SynthEngine) (f : ℚ) (vel : ℤ) : VoiceOk (newVoice E f vel) := by
  refine ⟨le_refl 0, zero_le_one, ?_, ?_⟩
  · show 0 < 1 / ((max 1 ⌊E.attack_sec * (E.sample_rate : ℚ)⌋ : ℤ) : ℚ)
    refine one_div_pos.mpr ?_
    have h1 : (1 : ℤ) ≤ max 1 ⌊E.attack_sec * (E.sample_rate : ℚ)⌋ := le_max_left 1 _
    exact_mod_cast lt_of_lt_of_le Int.zero_lt_one h1
  · show 0 < 1 / ((max 1 ⌊E.release_sec * (E.sample_rate : ℚ)⌋ : ℤ) : ℚ)
    refine one_div_pos.mpr ?_
    have h1 : (1 : ℤ) ≤ max 1 ⌊E.release_sec * (E.sample_rate : ℚ)⌋ := le_max_left 1 _
    exact_mod_cast lt_of_lt_of_le Int.zero_lt_one h1

theorem dictInsert_mem {β : Type} (l : List (ℕ × β)) (k : ℕ) (v : β) (p : ℕ × β)
    (hp : p ∈ dictInsert l k v) : p ∈ l ∨ p = (k, v) := by
  unfold dictInsert at hp
  by_cases h : k ∈ keysOf l
  · rw [if_pos h, List.mem_map] at hp
    obtain ⟨q, hq, rfl⟩ := hp
    by_cases hk : q.1 = k
    · rw [if_pos hk]; exact Or.inr rfl
    · rw [if_neg hk]; exact Or.inl hq
  · rw [if_neg h] at hp
    rcases List.mem_append.mp hp with h1 | h1
    · exact Or.inl h1
    · exact Or.inr (List.mem_singleton.mp h1)

theorem dictModify_mem {β : Type} (l : List (ℕ × β)) (k : ℕ) (f : β → β) (p : ℕ × β)
    (hp : p ∈ dictModify l k f) : ∃ q ∈ l, p = (q.1, f q.2) ∨ p = q := by
  unfold dictModify at hp
  rw [List.mem_map] at hp
  obtain ⟨q, hq, rfl⟩ := hp
  refine ⟨q, hq, ?_⟩
  by_cases hk : q.1 = k
  · rw [if_pos hk]; exact Or.inl rfl
  · rw [if_neg hk]; exact Or.inr rfl

theorem noteOn_ok (E : SynthEngine) (f : ℚ) (vel : ℤ) (h : EngineOk E) :
    EngineOk (noteOn E f vel).1 := by
  by_cases hc : E.max_voices ≤ E.voices.length
  · rw [noteOn_full E f vel hc]; exact h
  · rw [noteOn_spare E f vel hc]
    intro p hp
    rcases dictInsert_mem _ _ _ p hp with h1 | rfl
    · exact h p h1
    · exact newVoice_ok E f vel

theorem noteOff_ok (E : SynthEngine) (vid : ℕ) (h : EngineOk E) :
    EngineOk (noteOff E vid) := by
  unfold noteOff
  split
  · exact h
  · split
    · exact h
    · intro p hp
      have hp' : p ∈ dictModify E.voices vid
          (fun w => { w with state := EnvState.release }) := hp
      obtain ⟨q, hq, hpq | hpq⟩ := dictModify_mem _ _ _ p hp'
      · rw [hpq]; exact h q hq
      · rw [hpq]; exact h q hq

theorem setVoiceFreq_ok (E : SynthEngine) (vid : ℕ) (f : ℚ) (h : EngineOk E) :
    EngineOk (setVoiceFreq E vid f) := by
  unfold setVoiceFreq
  split
  · exact h
  · intro p hp
    have hp' : p ∈ dictModify E.voices vid (fun w => { w with freq := f }) := hp
    obtain ⟨q, hq, hpq | hpq⟩ := dictModify_mem _ _ _ p hp'
    · rw [hpq]; exact h q hq
    · rw [hpq]; exact h q hq

theorem allNotesOff_ok (E : SynthEngine) (h : EngineOk E) :
    EngineOk (allNotesOff E) := by
  intro p hp
  simp only [allNotesOff, List.mem_map] at hp
  obtain ⟨q, hq, rfl⟩ := hp
  exact h q hq

/-- One render step keeps a well-formed voice well formed: the attack
branch caps the stored level at `1.0` and the release branch floors it at
`0.0`; ramping branches stay strictly inside by the branch conditions. -/
theorem processVoice_ok (sr n : ℕ) (v : Voice) (h : VoiceOk v) :
    VoiceOk (processVoice sr n v).1 := by
  obtain ⟨h0, h1, ha, hr⟩ := h
  unfold processVoice
  split
  · exact ⟨h0, h1, ha, hr⟩
  dsimp only
  split
  case isTrue hpos =>
    split
    case isTrue hcross => exact ⟨zero_le_one, le_refl 1, ha, hr⟩
    case isFalse hcross =>
      refine ⟨?_, ?_, ha, hr⟩
      · have : 0 ≤ envInc v * (n : ℚ) := mul_nonneg (le_of_lt hpos) (Nat.cast_nonneg n)
        exact add_nonneg h0 this
      · exact le_of_lt (lt_of_not_le hcross)
  case isFalse hpos =>
    split
    case isTrue hneg =>
      split
      case isTrue hcross => exact ⟨le_refl 0, zero_le_one, ha, hr⟩
      case isFalse hcross =>
        refine ⟨le_of_lt (lt_of_not_le hcross), ?_, ha, hr⟩
        · have : envInc v * (n : ℚ) ≤ 0 :=
            mul_nonpos_of_nonpos_of_nonneg (le_of_lt hneg) (Nat.cast_nonneg n)
          calc v.env + envInc v * (n : ℚ) ≤ v.env + 0 := by linarith
            _ ≤ 1 := by linarith
    case isFalse hneg => exact ⟨h0, h1, ha, hr⟩

theorem renderChunkState_ok (E : SynthEngine) (n : ℕ) (h : EngineOk E) :
    EngineOk (renderChunkState E n) := by
  intro p hp
  simp only [renderChunkState, List.mem_map, List.mem_filter] at hp
  obtain ⟨q, ⟨⟨r, hr, rfl⟩, _⟩, rfl⟩ := hp
  exact processVoice_ok E.sample_rate n r.2 (h r hr)

/-- C8: from any well-formed engine state, every control operation and
every render block keeps all envelope levels in `[0,1]` (the attack branch
never stores a value above `1.0`, the release branch never below `0.0`). -/
theorem c8_envelope_level_in_unit (E : SynthEngine) (f : ℚ) (vel : ℤ)
    (vid : ℕ) (fr : ℚ) (n : ℕ) (h : EngineOk E) :
    EngineOk (noteOn E f vel).1 ∧
    EngineOk (noteOff E vid) ∧
    EngineOk (setVoiceFreq E vid fr) ∧
    EngineOk (allNotesOff E) ∧
    EngineOk (renderChunkState E n) ∧
    ∀ p ∈ E.voices, 0 ≤ p.2.env ∧ p.2.env ≤ 1 :=
  ⟨noteOn_ok E f vel h, noteOff_ok E vid h, setVoiceFreq_ok E vid fr h,
    allNotesOff_ok E h, renderChunkState_ok E n h,
    fun p hp => ⟨(h p hp).1, (h p hp).2.1⟩⟩

theorem engFull_ok : EngineOk engFull := by
  intro p hp
  simp only [engFull, noteOn, mkEngine] at hp
  norm_num [dictInsert, keysOf] at hp
  rw [hp]
  exact newVoice_ok _ 440 64

/-- Witness for C8 at the full one-voice engine. -/
theorem c8_envelope_level_in_unit_witness :
    EngineOk (noteOn engFull 330 100).1 ∧
    EngineOk (noteOff engFull 1) ∧
    EngineOk (setVoiceFreq engFull 1 330) ∧
    EngineOk (allNotesOff engFull) ∧
    EngineOk (renderChunkState engFull 512) ∧
    ∀ p ∈ engFull.voices, 0 ≤ p.2.env ∧ p.2.env ≤ 1 :=
  c8_envelope_level_in_unit engFull 330 100 1 330 512 engFull_ok

/-! ## Release completion and voice removal -/

theorem keys_nodup_unique {β : Type} (l : List (ℕ × β))
    (hnd : (keysOf l).Nodup) (p q : ℕ × β) (hp : p ∈ l) (hq : q ∈ l)
    (h : p.1 = q.1) : p = q := by
  induction l with
  | nil => cases hp
  | cons x rest ih =>
      have hnd2 : (x.1 :: keysOf rest).Nodup := by simpa [keysOf] using hnd
      have hx : x.1 ∉ keysOf rest := (List.nodup_cons.mp hnd2).1
      have hnd' : (keysOf rest).Nodup := (List.nodup_cons.mp hnd2).2
      rcases List.mem_cons.mp hp with rfl | hp'
      · rcases List.mem_cons.mp hq with rfl | hq'
        · rfl
        · exact absurd (h ▸ List.mem_map_of_mem Prod.fst hq') hx
      · rcases List.mem_cons.mp hq with rfl | hq'
        · exact absurd (h ▸ List.mem_map_of_mem Prod.fst hp') hx
        · exact ih hnd' hp' hq'

/-- The release branch of `processVoice` at a crossing: done, dead, ramp
below the transition index and silence from it on. -/
theorem processVoice_release_crossing (sr n : ℕ) (v : Voice)
    (hst : v.state = .release) (hrel : 0 < v.release_inc)
    (hend : v.env - v.release_inc * (n : ℚ) ≤ 0) :
    processVoice sr n v =
      ({ v with env := 0, state := .done, phase := nextPhase sr v n }, true,
        fun i => if i < (⌊v.env / v.release_inc⌋).toNat
          then v.env - v.release_inc * (i : ℚ) else 0) := by
  have hinc : envInc v = -v.release_inc := by rw [envInc, hst]
  unfold processVoice
  rw [if_neg (by rw [hst]; exact release_ne_done)]
  dsimp only
  rw [if_neg (by rw [hinc]; linarith), if_pos (by rw [hinc]; linarith),
    if_pos (by rw [hinc]; linarith [hend])]
  rw [Prod.mk.injEq]
  refine ⟨rfl, ?_⟩
  rw [Prod.mk.injEq]
  refine ⟨rfl, ?_⟩
  funext i
  rw [hinc, neg_neg]
  by_cases hlt : i < (⌊v.env / v.release_inc⌋).toNat
  · rw [if_pos hlt, if_pos hlt]
    ring
  · rw [if_neg hlt, if_neg hlt]

/-- Keys surviving one render call: exactly the keys of pool entries whose
processing did not mark them dead. -/
theorem mem_keysOf {β : Type} (l : List (ℕ × β)) (k : ℕ) :
    k ∈ keysOf l ↔ ∃ p ∈ l, p.1 = k := by
  simp [keysOf, List.mem_map]

theorem renderChunkState_mem_keys (E : SynthEngine) (n : ℕ) (k : ℕ) :
    k ∈ keysOf (renderChunkState E n).voices ↔
      ∃ q ∈ E.voices, q.1 = k ∧ (processVoice E.sample_rate n q.2).2.1 = false := by
  rw [mem_keysOf]
  show (∃ p ∈ ((E.voices.map (fun p => (p.1, processVoice E.sample_rate n p.2))).filter
      (fun q => ¬ q.2.2.1)).map (fun q => (q.1, q.2.1)), p.1 = k) ↔ _
  constructor
  · rintro ⟨p, hp, hfst⟩
    obtain ⟨y, hy, rfl⟩ := List.mem_map.mp hp
    obtain ⟨hy1, hy2⟩ := List.mem_filter.mp hy
    obtain ⟨a, ha, rfl⟩ := List.mem_map.mp hy1
    refine ⟨a, ha, hfst, ?_⟩
    simpa using hy2
  · rintro ⟨q, hq, hfst, hlive⟩
    exact ⟨(q.1, (processVoice E.sample_rate n q.2).1),
      List.mem_map.mpr ⟨(q.1, processVoice E.sample_rate n q.2),
        List.mem_filter.mpr ⟨List.mem_map.mpr ⟨q, hq, rfl⟩, by simpa using hlive⟩, rfl⟩,
      hfst⟩

/-- C9: a voice in release whose envelope projection reaches `0` within
the block is marked done and appended to `dead_voices`, renders silence
from the crossing index on, and is popped from the pool before the same
render call returns, so it is absent at the next call. -/
theorem c9_release_completion_removes (E : SynthEngine) (vid : ℕ) (v : Voice) (n : ℕ)
    (hmem : (vid, v) ∈ E.voices)
    (hnd : (keysOf E.voices).Nodup)
    (hst : v.state = .release) (hrel : 0 < v.release_inc)
    (hend : v.env - v.release_inc * (n : ℚ) ≤ 0) :
    (processVoice E.sample_rate n v).1.state = .done ∧
    (processVoice E.sample_rate n v).2.1 = true ∧
    (∀ i : ℕ, (⌊v.env / v.release_inc⌋).toNat ≤ i →
      (processVoice E.sample_rate n v).2.2 i = 0) ∧
    vid ∉ keysOf (renderChunkState E n).voices := by
  have hproc := processVoice_release_crossing E.sample_rate n v hst hrel hend
  refine ⟨by rw [hproc], by rw [hproc], ?_, ?_⟩
  · intro i hi
    rw [hproc]
    exact if_neg (by omega)
  · intro hkey
    obtain ⟨q, hq, hfst, hlive⟩ := (renderChunkState_mem_keys E n vid).mp hkey
    have hqv : q = (vid, v) := keys_nodup_unique E.voices hnd q (vid, v) hq hmem hfst
    rw [hqv, hproc] at hlive
    simp at hlive

/-- A concrete release voice that finishes within a 512-frame block. -/
noncomputable def vRel : Voice :=
  { freq := 440, phase := 0, gain := 1, state := .release, env := 1/2,
    attack_inc := 1/441, release_inc := 1/441 }

/-- A concrete one-voice engine holding `vRel`. -/
noncomputable def engRel : SynthEngine := { mkEngine with voices := [(1, vRel)] }

/-- Witness for C9 at the concrete release voice. -/
theorem c9_release_completion_removes_witness :
    (processVoice engRel.sample_rate 512 vRel).1.state = .done ∧
    (processVoice engRel.sample_rate 512 vRel).2.1 = true ∧
    (∀ i : ℕ, (⌊vRel.env / vRel.release_inc⌋).toNat ≤ i →
      (processVoice engRel.sample_rate 512 vRel).2.2 i = 0) ∧
    1 ∉ keysOf (renderChunkState engRel 512).voices :=
  c9_release_completion_removes engRel 1 vRel 512
    (by simp [engRel]) (by simp [engRel, keysOf]) rfl (by norm_num [vRel])
    (by norm_num [vRel])

/-! ## Mid-block envelope transitions -/

/-- The attack branch of `processVoice` at a crossing: ramp below the
transition index, sustain level `1.0` from it on, voice left in sustain. -/
theorem processVoice_attack_crossing (sr n : ℕ) (v : Voice)
    (hst : v.state = .attack) (hatt : 0 < v.attack_inc)
    (hcross : 1 ≤ v.env + v.attack_inc * (n : ℚ)) :
    processVoice sr n v =
      ({ v with env := 1, state := .sustain, phase := nextPhase sr v n }, false,
        fun i => if i < (⌊(1 - v.env) / v.attack_inc⌋).toNat
          then v.env + v.attack_inc * (i : ℚ) else 1) := by
  have hinc : envInc v = v.attack_inc := by rw [envInc, hst]
  unfold processVoice
  rw [if_neg (by rw [hst]; exact attack_ne_done)]
  dsimp only
  rw [if_pos (by rw [hinc]; exact hatt), if_pos (by rw [hinc]; exact hcross)]
  rw [hinc]

/-- The attack transition index lands inside the block. -/
theorem attack_transition_le (n : ℕ) (v : Voice) (hatt : 0 < v.attack_inc)
    (hcross : 1 ≤ v.env + v.attack_inc * (n : ℚ)) :
    (⌊(1 - v.env) / v.attack_inc⌋).toNat ≤ n := by
  have hx : (1 - v.env) / v.attack_inc ≤ (n : ℚ) := by
    rw [div_le_iff₀ hatt]
    linarith
  have := Int.floor_le_floor hx
  rw [Int.floor_natCast] at this
  omega

/-- The release transition index lands inside the block. -/
theorem release_transition_le (n : ℕ) (v : Voice) (hrel : 0 < v.release_inc)
    (hcross : v.env - v.release_inc * (n : ℚ) ≤ 0) :
    (⌊v.env / v.release_inc⌋).toNat ≤ n := by
  have hx : v.env / v.release_inc ≤ (n : ℚ) := by
    rw [div_le_iff₀ hrel]
    linarith
  have := Int.floor_le_floor hx
  rw [Int.floor_natCast] at this
  omega

/-- The engine after `note_on(440, 64)` on the default configuration:
Scenario A's starting state. -/
noncomputable def engScenA : SynthEngine := (noteOn (mkEngine) 440 64).1

/-- Scenario A's state after one 512-frame render: the voice has crossed
into sustain. -/
noncomputable def engScenA2 : SynthEngine := renderChunkState engScenA 512

/-- C2: a voice whose linear envelope projection crosses its target inside
the block transitions at `transitionIndex = floor((target - env)/inc)`,
which lies inside the block: samples below it ramp in the old state,
samples from it on hold the new state (sustain `1.0`, or silence), and the
stored level/state are the crossed values.  In particular (Scenario A)
`note_on(440, 64)` then one 512-frame render at 44100 Hz ramps samples
`[0, 441)` linearly by `i/441` times the sine, holds full sustain gain on
`[441, 512)`, and ends in sustain at level `1.0`. -/
theorem c2_midblock_transition (sr n : ℕ) (v : Voice)
    (hatt : 0 < v.attack_inc) (hrel : 0 < v.release_inc) :
    (v.state = .attack → 1 ≤ v.env + v.attack_inc * (n : ℚ) →
      (⌊(1 - v.env) / v.attack_inc⌋).toNat ≤ n ∧
      processVoice sr n v =
        ({ v with env := 1, state := .sustain, phase := nextPhase sr v n }, false,
          fun i => if i < (⌊(1 - v.env) / v.attack_inc⌋).toNat
            then v.env + v.attack_inc * (i : ℚ) else 1)) ∧
    (v.state = .release → v.env - v.release_inc * (n : ℚ) ≤ 0 →
      (⌊v.env / v.release_inc⌋).toNat ≤ n ∧
      processVoice sr n v =
        ({ v with env := 0, state := .done, phase := nextPhase sr v n }, true,
          fun i => if i < (⌊v.env / v.release_inc⌋).toNat
            then v.env - v.release_inc * (i : ℚ) else 0)) ∧
    (dictGet engScenA2.voices 1).map Voice.env = some 1 ∧
    (dictGet engScenA2.voices 1).map Voice.state = some EnvState.sustain ∧
    ∀ i : ℕ, renderMix engScenA 512 i =
      Real.sin (2 * Real.pi * (440 / 44100 * (i : ℝ))) *
        ((1 / 5) * gainOf 64 * (if i < 441 then (i : ℝ) / 441 else 1)) := by
  refine ⟨?_, ?_, ?_, ?_, ?_⟩
  · intro hst hcross
    exact ⟨attack_transition_le n v hatt hcross,
      processVoice_attack_crossing sr n v hst hatt hcross⟩
  · intro hst hcross
    exact ⟨release_transition_le n v hrel hcross,
      processVoice_release_crossing sr n v hst hrel hcross⟩
  · norm_num [engScenA2, engScenA, noteOn, mkEngine, newVoice, dictInsert, keysOf, dictGet,
      renderChunkState, processVoice, envInc, nextPhase, attack_ne_done]
  · norm_num [engScenA2, engScenA, noteOn, mkEngine, newVoice, dictInsert, keysOf, dictGet,
      renderChunkState, processVoice, envInc, nextPhase, attack_ne_done]
  · intro i
    norm_num [renderMix, engScenA, noteOn, mkEngine, newVoice, dictInsert, keysOf,
      processVoice, envInc, attack_ne_done]
    rw [apply_ite (fun q : ℚ => (q : ℝ))]
    push_cast
    by_cases hi : i < 441
    · rw [if_pos hi, if_pos hi]
      ring
    · rw [if_neg hi, if_neg hi]
      ring

/-- Witness for C2: the attack crossing of Scenario A's voice, with all
hypotheses discharged at `note_on(440, 64)` on the default engine and a
512-frame block. -/
theorem c2_midblock_transition_witness :
    (⌊(1 - (newVoice (mkEngine) 440 64).env) / (newVoice (mkEngine) 440 64).attack_inc⌋).toNat ≤ 512 ∧
    processVoice 44100 512 (newVoice (mkEngine) 440 64) =
      ({ newVoice (mkEngine) 440 64 with
          env := 1
          state := .sustain
          phase := nextPhase 44100 (newVoice (mkEngine) 440 64) 512 }, false,
        fun i => if i < (⌊(1 - (newVoice (mkEngine) 440 64).env) /
              (newVoice (mkEngine) 440 64).attack_inc⌋).toNat
          then (newVoice (mkEngine) 440 64).env +
            (newVoice (mkEngine) 440 64).attack_inc * (i : ℚ) else 1) :=
  (c2_midblock_transition 44100 512 (newVoice (mkEngine) 440 64)
    (by norm_num [newVoice, mkEngine]) (by norm_num [newVoice, mkEngine])).1
    rfl (by norm_num [newVoice, mkEngine])

/-! ## Phase bookkeeping across blocks -/

theorem sin_eq_of_sub_int (x y : ℝ) (n : ℤ) (h : y = x + n * (2 * Real.pi)) :
    Real.sin y = Real.sin x := by
  rw [h, Real.sin_add_int_mul_two_pi]

/-- Reducing a phase (in turns) modulo one turn does not change the sample
value. -/
theorem sin_turns_fract (q : ℚ) :
    Real.sin (2 * Real.pi * ((fract q : ℚ) : ℝ)) = Real.sin (2 * Real.pi * (q : ℝ)) := by
  refine (sin_eq_of_sub_int _ _ ⌊q⌋ ?_).symm
  rw [fract, Int.fract]
  push_cast
  ring

/-- C3 fails on the code: `_render_chunk` stores
`mod(phase + w*(n-1), 2π)` — the phase already consumed by the block's
LAST sample — instead of `mod(phase + w*n, 2π)`.  Concretely, after
Scenario A's first 512-frame block the stored phase (in turns) is
`fract(440/44100 * 511)`, which differs from the uninterrupted-sinusoid
phase `fract(440/44100 * 512)`, and the first sample of the second block
repeats the last sample of the first block instead of advancing by `w`. -/
theorem c3_phase_not_advanced :
    (dictGet engScenA2.voices 1).map Voice.phase =
      some (fract ((440/44100 : ℚ) * 511)) ∧
    fract ((440/44100 : ℚ) * 511) ≠ fract ((440/44100 : ℚ) * 512) ∧
    renderMix engScenA2 512 0 = renderMix engScenA 512 511 := by
  have h1 : fract ((440/44100 : ℚ) * 511) = 31/315 := by
    rw [fract, Int.fract]; norm_num
  have h2 : fract ((440/44100 : ℚ) * 512) = 239/2205 := by
    rw [fract, Int.fract]; norm_num
  refine ⟨?_, ?_, ?_⟩
  · rw [h1]
    norm_num [engScenA2, engScenA, noteOn, mkEngine, newVoice, dictInsert, keysOf, dictGet,
      renderChunkState, processVoice, envInc, nextPhase, attack_ne_done]
    rw [fract, Int.fract]
    norm_num
  · rw [h1, h2]
    norm_num
  · have hs := sin_turns_fract (1606/315 : ℚ)
    push_cast at hs
    norm_num [engScenA2, engScenA, renderMix, noteOn, mkEngine, newVoice, dictInsert,
      keysOf, renderChunkState, processVoice, envInc, nextPhase, attack_ne_done,
      sustain_ne_done]
    rw [hs]
    exact Or.inl rfl

/-! ## Scheduler reconciliation lemmas -/

theorem noteOff_voices_length (E : SynthEngine) (vid : ℕ) :
    (noteOff E vid).voices.length = E.voices.length := by
  unfold noteOff
  split
  · rfl
  · split
    · rfl
    · exact dictModify_length E.voices vid (fun w => { w with state := EnvState.release })

theorem noteOff_max_voices (E : SynthEngine) (vid : ℕ) :
    (noteOff E vid).max_voices = E.max_voices := by
  unfold noteOff
  split
  · rfl
  · split <;> rfl

theorem foldl_noteOff_length (vids : List ℕ) (E : SynthEngine) :
    (vids.foldl noteOff E).voices.length = E.voices.length ∧
    (vids.foldl noteOff E).max_voices = E.max_voices := by
  induction vids generalizing E with
  | nil => exact ⟨rfl, rfl⟩
  | cons v rest ih =>
      have := ih (noteOff E v)
      simp only [List.foldl_cons]
      rw [this.1, this.2, noteOff_voices_length, noteOff_max_voices]
      exact ⟨rfl, rfl⟩

theorem removePhase_tracked (want : List ℕ) (E : SynthEngine)
    (tracked : List (ℕ × List ℕ)) :
    (removePhase want E tracked).2.1 =
      tracked.filter (fun p => decide (p.1 ∈ want)) := by
  induction tracked generalizing E with
  | nil => rfl
  | cons p rest ih =>
      obtain ⟨idx, vids⟩ := p
      by_cases h : idx ∈ want
      · simp only [removePhase, List.filter_cons]
        rw [if_pos h, ih E]
        simp [h]
      · simp only [removePhase, List.filter_cons]
        rw [if_neg h, ih (vids.foldl noteOff E)]
        simp [h]

theorem removePhase_off_mem (want : List ℕ) (E : SynthEngine)
    (tracked : List (ℕ × List ℕ)) (p : ℕ × List ℕ) (hp : p ∈ tracked)
    (hnw : p.1 ∉ want) :
    ∀ vid ∈ p.2, SynthCall.off vid ∈ (removePhase want E tracked).2.2 := by
  induction tracked generalizing E with
  | nil => cases hp
  | cons q rest ih =>
      intro vid hvid
      obtain ⟨idx, vids⟩ := q
      rcases List.mem_cons.mp hp with rfl | hp'
      · simp only [removePhase, if_neg hnw]
        exact List.mem_append_left _ (List.mem_map_of_mem SynthCall.off hvid)
      · by_cases h : idx ∈ want
        · simp only [removePhase, if_pos h]
          exact ih E hp' vid hvid
        · simp only [removePhase, if_neg h]
          exact List.mem_append_right _ (ih (vids.foldl noteOff E) hp' vid hvid)

theorem removePhase_all_kept (want : List ℕ) (E : SynthEngine)
    (tracked : List (ℕ × List ℕ)) (h : ∀ p ∈ tracked, p.1 ∈ want) :
    removePhase want E tracked = (E, tracked, []) := by
  induction tracked generalizing E with
  | nil => rfl
  | cons q rest ih =>
      obtain ⟨idx, vids⟩ := q
      have hidx : idx ∈ want := h (idx, vids) (List.mem_cons_self _ _)
      simp only [removePhase, if_pos hidx]
      rw [ih E (fun p hp => h p (List.mem_cons_of_mem _ hp))]

theorem removePhase_engine (want : List ℕ) (E : SynthEngine)
    (tracked : List (ℕ × List ℕ)) :
    (removePhase want E tracked).1.voices.length = E.voices.length ∧
    (removePhase want E tracked).1.max_voices = E.max_voices := by
  induction tracked generalizing E with
  | nil => exact ⟨rfl, rfl⟩
  | cons q rest ih =>
      obtain ⟨idx, vids⟩ := q
      by_cases h : idx ∈ want
      · simp only [removePhase, if_pos h]
        exact ih E
      · simp only [removePhase, if_neg h]
        have h1 := ih (vids.foldl noteOff E)
        have h2 := foldl_noteOff_length vids E
        exact ⟨h1.1.trans h2.1, h1.2.trans h2.2⟩

theorem keysOf_filter_mem (tracked : List (ℕ × List ℕ)) (want : List ℕ) (i : ℕ) :
    i ∈ keysOf (tracked.filter (fun p => decide (p.1 ∈ want))) ↔
      i ∈ keysOf tracked ∧ i ∈ want := by
  rw [mem_keysOf, mem_keysOf]
  constructor
  · rintro ⟨p, hp, rfl⟩
    obtain ⟨hp1, hp2⟩ := List.mem_filter.mp hp
    exact ⟨⟨p, hp1, rfl⟩, by simpa using hp2⟩
  · rintro ⟨⟨p, hp, rfl⟩, hw⟩
    exact ⟨p, List.mem_filter.mpr ⟨hp, by simpa using hw⟩, rfl⟩

theorem addPhase_keys_mono (notes : List Note) (freqOf : ℤ → ℚ) (queue : List ℕ)
    (E : SynthEngine) (acc : List (ℕ × List ℕ)) (i : ℕ) (hi : i ∈ keysOf acc) :
    i ∈ keysOf (addPhase notes freqOf E acc queue).2.1 := by
  induction queue generalizing E acc with
  | nil => exact hi
  | cons j rest ih =>
      by_cases hj : j ∈ keysOf acc
      · simp only [addPhase]
        rw [if_pos hj]
        exact ih E acc hi
      · rcases hget : notes.get? j with _ | nt
        · simp only [addPhase, hget]
          rw [if_neg hj]
          exact ih E acc hi
        · simp only [addPhase, hget]
          rw [if_neg hj]
          dsimp only
          rcases hr : (noteOn E (freqOf nt.pitch) nt.vel).2 with _ | vid
          · simp only [hr]
            exact ih _ acc hi
          · simp only [hr]
            exact ih _ _ ((dictInsert_mem_keys acc j [vid] i).mpr (Or.inl hi))

theorem addPhase_keys_sub (notes : List Note) (freqOf : ℤ → ℚ) (queue : List ℕ)
    (E : SynthEngine) (acc : List (ℕ × List ℕ)) (i : ℕ)
    (hi : i ∈ keysOf (addPhase notes freqOf E acc queue).2.1) :
    i ∈ keysOf acc ∨ i ∈ queue := by
  induction queue generalizing E acc with
  | nil => exact Or.inl hi
  | cons j rest ih =>
      by_cases hj : j ∈ keysOf acc
      · simp only [addPhase] at hi
        rw [if_pos hj] at hi
        rcases ih E acc hi with h | h
        · exact Or.inl h
        · exact Or.inr (List.mem_cons_of_mem j h)
      · rcases hget : notes.get? j with _ | nt
        · simp only [addPhase, hget] at hi
          rw [if_neg hj] at hi
          rcases ih E acc hi with h | h
          · exact Or.inl h
          · exact Or.inr (List.mem_cons_of_mem j h)
        · simp only [addPhase, hget] at hi
          rw [if_neg hj] at hi
          dsimp only at hi
          rcases hr : (noteOn E (freqOf nt.pitch) nt.vel).2 with _ | vid
          · rw [hr] at hi
            rcases ih _ acc hi with h | h
            · exact Or.inl h
            · exact Or.inr (List.mem_cons_of_mem j h)
          · rw [hr] at hi
            rcases ih _ _ hi with h | h
            · rcases (dictInsert_mem_keys acc j [vid] i).mp h with h' | rfl
              · exact Or.inl h'
              · exact Or.inr (List.mem_cons_self _ _)
            · exact Or.inr (List.mem_cons_of_mem j h)

theorem addPhase_log_mem (notes : List Note) (freqOf : ℤ → ℚ) (queue : List ℕ)
    (E : SynthEngine) (acc : List (ℕ × List ℕ)) :
    ∀ c ∈ (addPhase notes freqOf E acc queue).2.2,
      ∃ i, c = SynthCall.on i ∧ i ∉ keysOf acc ∧ i ∈ queue := by
  induction queue generalizing E acc with
  | nil => intro c hc; cases hc
  | cons j rest ih =>
      intro c hc
      by_cases hj : j ∈ keysOf acc
      · simp only [addPhase] at hc
        rw [if_pos hj] at hc
        obtain ⟨i, rfl, hna, hq⟩ := ih E acc c hc
        exact ⟨i, rfl, hna, List.mem_cons_of_mem j hq⟩
      · rcases hget : notes.get? j with _ | nt
        · simp only [addPhase, hget] at hc
          rw [if_neg hj] at hc
          obtain ⟨i, rfl, hna, hq⟩ := ih E acc c hc
          exact ⟨i, rfl, hna, List.mem_cons_of_mem j hq⟩
        · simp only [addPhase, hget] at hc
          rw [if_neg hj] at hc
          dsimp only at hc
          rcases List.mem_cons.mp hc with rfl | hc'
          · exact ⟨j, rfl, hj, List.mem_cons_self _ _⟩
          · rcases hr : (noteOn E (freqOf nt.pitch) nt.vel).2 with _ | vid
            · rw [hr] at hc'
              obtain ⟨i, rfl, hna, hq⟩ := ih _ acc c hc'
              exact ⟨i, rfl, hna, List.mem_cons_of_mem j hq⟩
            · rw [hr] at hc'
              obtain ⟨i, rfl, hna, hq⟩ := ih _ _ c hc'
              refine ⟨i, rfl, fun hia => hna ?_, List.mem_cons_of_mem j hq⟩
              exact (dictInsert_mem_keys acc j [vid] i).mpr (Or.inl hia)

theorem addPhase_on_issued (notes : List Note) (freqOf : ℤ → ℚ) (queue : List ℕ)
    (E : SynthEngine) (acc : List (ℕ × List ℕ)) (i : ℕ)
    (hi : i ∈ queue) (hnot : i ∉ keysOf acc)
    (hget : ∀ j ∈ queue, ∃ nt, notes.get? j = some nt) :
    SynthCall.on i ∈ (addPhase notes freqOf E acc queue).2.2 := by
  induction queue generalizing E acc with
  | nil => cases hi
  | cons j rest ih =>
      rcases eq_or_ne i j with rfl | hne
      · obtain ⟨nt, hnt⟩ := hget i (List.mem_cons_self _ _)
        simp only [addPhase, hnt]
        rw [if_neg hnot]
        dsimp only
        rcases hr : (noteOn E (freqOf nt.pitch) nt.vel).2 with _ | vid <;>
          simp [hr]
      · have hi' : i ∈ rest := by
          rcases List.mem_cons.mp hi with rfl | h
          · exact absurd rfl hne
          · exact h
        have hget' : ∀ j' ∈ rest, ∃ nt, notes.get? j' = some nt :=
          fun j' hj' => hget j' (List.mem_cons_of_mem j hj')
        by_cases hj : j ∈ keysOf acc
        · simp only [addPhase]
          rw [if_pos hj]
          exact ih E acc hi' hnot hget'
        · obtain ⟨nt, hnt⟩ := hget j (List.mem_cons_self _ _)
          simp only [addPhase, hnt]
          rw [if_neg hj]
          dsimp only
          rcases hr : (noteOn E (freqOf nt.pitch) nt.vel).2 with _ | vid
          · simp only [hr]
            exact List.mem_cons_of_mem _ (ih _ acc hi' hnot hget')
          · simp only [hr]
            refine List.mem_cons_of_mem _ (ih _ _ hi' ?_ hget')
            intro hmem
            rcases (dictInsert_mem_keys acc j [vid] i).mp hmem with h' | h'
            · exact hnot h'
            · exact hne h'

theorem addPhase_skip_all (notes : List Note) (freqOf : ℤ → ℚ) (queue : List ℕ)
    (E : SynthEngine) (acc : List (ℕ × List ℕ))
    (h : ∀ i ∈ queue, i ∈ keysOf acc) :
    addPhase notes freqOf E acc queue = (E, acc, []) := by
  induction queue with
  | nil => rfl
  | cons j rest ih =>
      simp only [addPhase]
      rw [if_pos (h j (List.mem_cons_self _ _))]
      exact ih (fun i hi => h i (List.mem_cons_of_mem j hi))

theorem addPhase_complete (notes : List Note) (freqOf : ℤ → ℚ) (queue : List ℕ)
    (E : SynthEngine) (acc : List (ℕ × List ℕ))
    (hget : ∀ j ∈ queue, ∃ nt, notes.get? j = some nt)
    (hcap : E.voices.length +
      (queue.filter (fun i => decide (i ∉ keysOf acc))).length ≤ E.max_voices) :
    ∀ i ∈ queue, i ∈ keysOf (addPhase notes freqOf E acc queue).2.1 := by
  induction queue generalizing E acc with
  | nil => intro i hi; cases hi
  | cons j rest ih =>
      have hget' : ∀ j' ∈ rest, ∃ nt, notes.get? j' = some nt :=
        fun j' hj' => hget j' (List.mem_cons_of_mem j hj')
      by_cases hj : j ∈ keysOf acc
      · have hcap' : E.voices.length +
            (rest.filter (fun i => decide (i ∉ keysOf acc))).length ≤ E.max_voices := by
          have : ((j :: rest).filter (fun i => decide (i ∉ keysOf acc))) =
              rest.filter (fun i => decide (i ∉ keysOf acc)) := by
            rw [List.filter_cons]
            simp [hj]
          rw [this] at hcap
          exact hcap
        intro i hi
        rcases List.mem_cons.mp hi with rfl | hi'
        · simp only [addPhase]
          rw [if_pos hj]
          exact addPhase_keys_mono notes freqOf rest E acc i hj
        · simp only [addPhase]
          rw [if_pos hj]
          exact ih E acc hget' hcap' i hi'
      · obtain ⟨nt, hnt⟩ := hget j (List.mem_cons_self _ _)
        have hcount : ((j :: rest).filter (fun i => decide (i ∉ keysOf acc))).length =
            (rest.filter (fun i => decide (i ∉ keysOf acc))).length + 1 := by
          rw [List.filter_cons]
          simp [hj]
        rw [hcount] at hcap
        have hroom : ¬ E.max_voices ≤ E.voices.length := by omega
        have hspare := noteOn_spare E (freqOf nt.pitch) nt.vel hroom
        have hlen : (noteOn E (freqOf nt.pitch) nt.vel).1.voices.length ≤
            E.voices.length + 1 := by
          rw [hspare]
          show (dictInsert E.voices E.next_voice_id _).length ≤ E.voices.length + 1
          rw [dictInsert_length]
          split <;> omega
        have hmax : (noteOn E (freqOf nt.pitch) nt.vel).1.max_voices = E.max_voices :=
          noteOn_max_voices E (freqOf nt.pitch) nt.vel
        have hsub : ∀ a : ℕ,
            decide (a ∉ keysOf (dictInsert acc j [E.next_voice_id])) = true →
            decide (a ∉ keysOf acc) = true := by
          intro a ha
          simp only [decide_eq_true_eq] at ha ⊢
          exact fun hmem => ha ((dictInsert_mem_keys acc j _ a).mpr (Or.inl hmem))
        have hcount' : (rest.filter
              (fun i => decide (i ∉ keysOf (dictInsert acc j [E.next_voice_id])))).length ≤
            (rest.filter (fun i => decide (i ∉ keysOf acc))).length :=
          (List.monotone_filter_right rest hsub).length_le
        have hcap' : (noteOn E (freqOf nt.pitch) nt.vel).1.voices.length +
            (rest.filter (fun i =>
              decide (i ∉ keysOf (dictInsert acc j [E.next_voice_id])))).length ≤
            (noteOn E (freqOf nt.pitch) nt.vel).1.max_voices := by
          rw [hmax]
          omega
        intro i hi
        simp only [addPhase, hnt]
        rw [if_neg hj]
        dsimp only
        rw [hspare]
        dsimp only
        rcases List.mem_cons.mp hi with rfl | hi'
        · exact addPhase_keys_mono notes freqOf rest _ _ i
            ((dictInsert_mem_keys acc i _ i).mpr (Or.inr rfl))
        · have := ih (noteOn E (freqOf nt.pitch) nt.vel).1
            (dictInsert acc j [E.next_voice_id]) hget' hcap' i hi'
          rw [hspare] at this
          exact this

theorem wantActive_get (notes : List Note) (t : ℚ) :
    ∀ i ∈ wantActive notes t, ∃ nt, notes.get? i = some nt := by
  intro i hi
  unfold wantActive at hi
  obtain ⟨p, hp, rfl⟩ := List.mem_map.mp hi
  have hpe := (List.mem_filter.mp hp).1
  refine ⟨p.2, ?_⟩
  rw [List.get?_eq_getElem?]
  exact List.mem_enum_iff_getElem?.mp hpe

/-- The reconciled tracking dict only holds wanted indices. -/
theorem auditionUpdate_keys_subset (freqOf : ℤ → ℚ) (E : SynthEngine)
    (tracked : List (ℕ × List ℕ)) (notes : List Note) (t : ℚ) :
    ∀ i ∈ keysOf (auditionUpdateForTime freqOf E tracked notes t).2.1,
      i ∈ wantActive notes t := by
  intro i hi
  unfold auditionUpdateForTime at hi
  dsimp only at hi
  rcases addPhase_keys_sub notes freqOf (wantActive notes t) _ _ i hi with h | h
  · rw [removePhase_tracked] at h
    exact ((keysOf_filter_mem tracked _ i).mp h).2
  · exact h

/-- C4 (amended): after reconciliation the tracked indices are a subset of
the desired active set `A(t)`; every index leaving `A(t)` is dropped and
gets `note_off` for each of its voice ids; every entering index is issued
`note_on`; and the tracked set EQUALS `A(t)` provided the pool has room
for every entering index (in general an entering index whose `note_on`
returns no voice stays untracked). -/
theorem c4_reconciled_active_set (freqOf : ℤ → ℚ) (E : SynthEngine)
    (tracked : List (ℕ × List ℕ)) (notes : List Note) (t : ℚ) :
    (∀ i ∈ keysOf (auditionUpdateForTime freqOf E tracked notes t).2.1,
        i ∈ wantActive notes t) ∧
    (∀ p ∈ tracked, p.1 ∉ wantActive notes t →
        p.1 ∉ keysOf (auditionUpdateForTime freqOf E tracked notes t).2.1 ∧
        ∀ vid ∈ p.2,
          SynthCall.off vid ∈ (auditionUpdateForTime freqOf E tracked notes t).2.2) ∧
    (∀ i ∈ wantActive notes t, i ∉ keysOf tracked →
        SynthCall.on i ∈ (auditionUpdateForTime freqOf E tracked notes t).2.2) ∧
    (E.voices.length + ((wantActive notes t).filter
          (fun i => decide (i ∉ keysOf tracked))).length ≤ E.max_voices →
      ∀ i, i ∈ keysOf (auditionUpdateForTime freqOf E tracked notes t).2.1 ↔
        i ∈ wantActive notes t) := by
  refine ⟨auditionUpdate_keys_subset freqOf E tracked notes t, ?_, ?_, ?_⟩
  · intro p hp hpw
    constructor
    · intro hmem
      exact hpw (auditionUpdate_keys_subset freqOf E tracked notes t p.1 hmem)
    · intro vid hvid
      unfold auditionUpdateForTime
      dsimp only
      exact List.mem_append_left _
        (removePhase_off_mem (wantActive notes t) E tracked p hp hpw vid hvid)
  · intro i hi hnt
    unfold auditionUpdateForTime
    dsimp only
    refine List.mem_append_right _
      (addPhase_on_issued notes freqOf (wantActive notes t) _ _ i hi ?_
        (wantActive_get notes t))
    rw [removePhase_tracked]
    intro hmem
    exact hnt ((keysOf_filter_mem tracked _ i).mp hmem).1
  · intro hcap i
    constructor
    · exact auditionUpdate_keys_subset freqOf E tracked notes t i
    · intro hi
      unfold auditionUpdateForTime
      dsimp only
      refine addPhase_complete notes freqOf (wantActive notes t) _ _
        (wantActive_get notes t) ?_ i hi
      have hfe : (wantActive notes t).filter
            (fun i => decide (i ∉ keysOf (removePhase (wantActive notes t) E tracked).2.1)) =
          (wantActive notes t).filter (fun i => decide (i ∉ keysOf tracked)) := by
        refine List.filter_congr ?_
        intro x hx
        rw [decide_eq_decide]
        rw [removePhase_tracked]
        rw [keysOf_filter_mem]
        constructor
        · intro hnot hmem
          exact hnot ⟨hmem, hx⟩
        · intro hnot hmem
          exact hnot hmem.1
      rw [hfe, (removePhase_engine (wantActive notes t) E tracked).1,
        (removePhase_engine (wantActive notes t) E tracked).2]
      exact hcap

/-- C5 (amended): a second reconciliation at the same `t` issues no
`note_off` at all and issues `note_on` only for indices that the first
pass failed to record (never for an index already sounding); when the
first pass recorded every entering index — e.g. whenever the pool had
room — the second pass issues nothing and changes nothing. -/
theorem c5_reconciliation_idempotent (freqOf : ℤ → ℚ) (E : SynthEngine)
    (tracked : List (ℕ × List ℕ)) (notes : List Note) (t : ℚ)
    (E1 : SynthEngine) (tr1 : List (ℕ × List ℕ)) (log1 : List SynthCall)
    (E2 : SynthEngine) (tr2 : List (ℕ × List ℕ)) (log2 : List SynthCall)
    (h1 : auditionUpdateForTime freqOf E tracked notes t = (E1, tr1, log1))
    (h2 : auditionUpdateForTime freqOf E1 tr1 notes t = (E2, tr2, log2)) :
    (∀ vid, SynthCall.off vid ∉ log2) ∧
    (∀ i, SynthCall.on i ∈ log2 → i ∉ keysOf tr1) ∧
    ((∀ i ∈ wantActive notes t, i ∈ keysOf tr1) →
      (E2, tr2, log2) = (E1, tr1, ([] : List SynthCall))) := by
  have hsub : ∀ i ∈ keysOf tr1, i ∈ wantActive notes t := by
    intro i hi
    refine auditionUpdate_keys_subset freqOf E tracked notes t i ?_
    rw [h1]
    exact hi
  have hkept : ∀ p ∈ tr1, p.1 ∈ wantActive notes t := by
    intro p hp
    exact hsub p.1 (List.mem_map_of_mem Prod.fst hp)
  have hrem := removePhase_all_kept (wantActive notes t) E1 tr1 hkept
  have hsecond : auditionUpdateForTime freqOf E1 tr1 notes t =
      ((addPhase notes freqOf E1 tr1 (wantActive notes t)).1,
        (addPhase notes freqOf E1 tr1 (wantActive notes t)).2.1,
        (addPhase notes freqOf E1 tr1 (wantActive notes t)).2.2) := by
    unfold auditionUpdateForTime
    dsimp only
    rw [hrem]
    simp
  rw [hsecond] at h2
  rw [Prod.mk.injEq, Prod.mk.injEq] at h2
  obtain ⟨hE2, htr2, hlog2⟩ := h2
  refine ⟨?_, ?_, ?_⟩
  · intro vid hvid
    rw [← hlog2] at hvid
    obtain ⟨i, hi, _, _⟩ := addPhase_log_mem notes freqOf (wantActive notes t) E1 tr1 _ hvid
    cases hi
  · intro i hi
    rw [← hlog2] at hi
    obtain ⟨j, hj, hna, _⟩ := addPhase_log_mem notes freqOf (wantActive notes t) E1 tr1 _ hi
    cases hj
    exact hna
  · intro hall
    have hskip := addPhase_skip_all notes freqOf (wantActive notes t) E1 tr1
      (fun i hi => hall i hi)
    rw [hskip] at hE2 htr2 hlog2
    rw [← hE2, ← htr2, ← hlog2]

/-- One-note timeline used by scheduler witnesses. -/
def wNotes : List Note := [⟨60, 0, 1, 100⟩]

/-- Two overlapping notes used by the scheduler counterexamples, played
against a one-voice engine. -/
def cexNotes : List Note := [⟨60, 0, 1, 100⟩, ⟨62, 0, 1, 100⟩]

/-- Witness for C4: reconciling the one-note timeline at `t = 1/2` on the
default engine from an empty tracking dict tracks exactly the active set
and issues `note_on` for the entering index. -/
theorem c4_reconciled_active_set_witness :
    (∀ i, i ∈ keysOf (auditionUpdateForTime (fun _ => 440) (mkEngine) [] wNotes (1/2)).2.1 ↔
        i ∈ wantActive wNotes (1/2)) ∧
    SynthCall.on 0 ∈ (auditionUpdateForTime (fun _ => 440) (mkEngine) [] wNotes (1/2)).2.2 :=
  ⟨(c4_reconciled_active_set (fun _ => 440) (mkEngine) [] wNotes (1/2)).2.2.2
      (by norm_num [mkEngine, wantActive, wNotes, List.enum_cons, List.enumFrom, keysOf]),
    (c4_reconciled_active_set (fun _ => 440) (mkEngine) [] wNotes (1/2)).2.2.1 0
      (by norm_num [wantActive, wNotes, List.enum_cons, List.enumFrom])
      (by simp [keysOf])⟩

/-- Counterexample to C4 as stated: with `maxVoices = 1` and two notes
active at `t = 1/2`, the second `note_on` returns no voice, so index `1`
is active but untracked — the tracked set is `{0}`, not `A(t) = {0, 1}`. -/
theorem c4_reconciled_active_set_counterexample :
    1 ∈ wantActive cexNotes (1/2) ∧
    1 ∉ keysOf (auditionUpdateForTime (fun _ => 440) (mkEngine 44100 1) [] cexNotes (1/2)).2.1 ∧
    keysOf (auditionUpdateForTime (fun _ => 440) (mkEngine 44100 1) [] cexNotes (1/2)).2.1 = [0] := by
  refine ⟨?_, ?_, ?_⟩ <;>
    norm_num [auditionUpdateForTime, wantActive, cexNotes, List.enum_cons, List.enumFrom,
      removePhase, addPhase, noteOn, mkEngine, dictInsert, keysOf, dictGet]

/-- The engine after the C5 witness's first reconciliation: one voice from
`note_on(440, 100)`. -/
noncomputable def engW1 : SynthEngine := (noteOn (mkEngine) 440 100).1

theorem engW1_first_pass :
    auditionUpdateForTime (fun _ => 440) (mkEngine) [] wNotes (1/2) =
      (engW1, [(0, [1])], [SynthCall.on 0]) := by
  norm_num [auditionUpdateForTime, wantActive, wNotes, List.enum_cons, List.enumFrom,
    removePhase, addPhase, noteOn, engW1, mkEngine, dictInsert, keysOf, dictGet]

theorem engW1_second_pass :
    auditionUpdateForTime (fun _ => 440) engW1 [(0, [1])] wNotes (1/2) =
      (engW1, [(0, [1])], ([] : List SynthCall)) := by
  norm_num [auditionUpdateForTime, wantActive, wNotes, List.enum_cons, List.enumFrom,
    removePhase, addPhase, keysOf]

/-- Witness for C5 at the one-note timeline: the second reconciliation's
log is empty, so the no-`note_off`, no-retrigger and idempotence parts
hold concretely. -/
theorem c5_reconciliation_idempotent_witness :
    (∀ vid, SynthCall.off vid ∉ ([] : List SynthCall)) ∧
    (∀ i, SynthCall.on i ∈ ([] : List SynthCall) → i ∉ keysOf [(0, [1])]) ∧
    ((∀ i ∈ wantActive wNotes (1/2), i ∈ keysOf [(0, [1])]) →
      ((engW1, [(0, [1])], ([] : List SynthCall)) =
        (engW1, [(0, [1])], ([] : List SynthCall)))) :=
  c5_reconciliation_idempotent (fun _ => 440) (mkEngine) [] wNotes (1/2)
    engW1 [(0, [1])] [SynthCall.on 0] engW1 [(0, [1])] []
    engW1_first_pass engW1_second_pass

/-- Counterexample to C5 as stated: with `maxVoices = 1` and two notes
active, the first reconciliation fails to record index `1`, so invoking
reconciliation again with `t` unchanged issues one additional `note_on`. -/
theorem c5_reconciliation_idempotent_counterexample :
    (auditionUpdateForTime (fun _ => 440)
        (auditionUpdateForTime (fun _ => 440) (mkEngine 44100 1) [] cexNotes (1/2)).1
        (auditionUpdateForTime (fun _ => 440) (mkEngine 44100 1) [] cexNotes (1/2)).2.1
        cexNotes (1/2)).2.2 = [SynthCall.on 1] ∧
    (auditionUpdateForTime (fun _ => 440)
        (auditionUpdateForTime (fun _ => 440) (mkEngine 44100 1) [] cexNotes (1/2)).1
        (auditionUpdateForTime (fun _ => 440) (mkEngine 44100 1) [] cexNotes (1/2)).2.1
        cexNotes (1/2)).2.2 ≠ ([] : List SynthCall) := by
  constructor
  · norm_num [auditionUpdateForTime, wantActive, cexNotes, List.enum_cons, List.enumFrom,
      removePhase, addPhase, noteOn, mkEngine, dictInsert, keysOf, dictGet]
  · intro h
    rw [(by norm_num [auditionUpdateForTime, wantActive, cexNotes, List.enum_cons,
        List.enumFrom, removePhase, addPhase, noteOn, mkEngine, dictInsert, keysOf, dictGet] :
      (auditionUpdateForTime (fun _ => 440)
        (auditionUpdateForTime (fun _ => 440) (mkEngine 44100 1) [] cexNotes (1/2)).1
        (auditionUpdateForTime (fun _ => 440) (mkEngine 44100 1) [] cexNotes (1/2)).2.1
        cexNotes (1/2)).2.2 = [SynthCall.on 1])] at h
    cases h

end SpecAnnotate
